import Mathlib

/-
Verification of the compound-archive extraction program (src/index.ts and
the compiled variant src/unnamed/part_000) against its specification.

Strings are modelled as `List Char` and byte buffers as `List Nat`.
JS string primitives (indexOf, split, substring, trim, the concrete regex
replacements the source uses) are given explicit models below; each model is
named after the primitive it embeds.  External capabilities (the sharp image
codec, Buffer.toString decoding) are abstracted as parameters, as the spec
itself treats them ("an abstract codec capability with a defined fallback
contract").
-/

namespace FileExtraction

/-- Boolean test that the token occurs at the head of the list, i.e. the
list starts with the token.  This is the anchored comparison JS
String.indexOf performs at each candidate position. -/
def tokenAt {α : Type} [DecidableEq α] : List α → List α → Bool
  | [], _ => true
  | _ :: _, [] => false
  | a :: tok, b :: s => if a = b then tokenAt tok s else false

/-- Leftmost index at which the token occurs, modelling JS
String.indexOf / Buffer.indexOf (none where the JS code gets -1). -/
def indexOfToken {α : Type} [DecidableEq α] (tok : List α) : List α → Option Nat
  | [] => if tokenAt tok ([] : List α) then some 0 else none
  | b :: s => if tokenAt tok (b :: s) then some 0 else (indexOfToken tok s).map (· + 1)

/-- Number of positions at which the token occurs in the list. -/
def occCount {α : Type} [DecidableEq α] (tok : List α) : List α → Nat
  | [] => 0
  | b :: s => (if tokenAt tok (b :: s) then 1 else 0) + occCount tok s

/-- The section delimiter token of the archive format. -/
def DELIM : List Char := "**%%DOCU".toList

/-- The signature marker separating a section's metadata from its payload. -/
def SIG : List Char := "_SIG/D.C.".toList

/-! ## The streaming section scanner (sectionExtractor, src/index.ts:282-322)

The Transform closure keeps three pieces of state: the carry-over string
`buffer`, the flag `inSection` and the accumulator `currentSection`.  Each
`transform` call appends the chunk to `buffer` and runs a while loop that
repeatedly takes the leftmost delimiter out of `buffer`; afterwards, if
`inSection`, the whole remaining `buffer` is moved into `currentSection`.
The while loop is modelled by `scanLoopF`; the explicit fuel argument only
bounds the number of loop iterations (each iteration consumes at least the
delimiter from the buffer, so `buffer.length` iterations always suffice). -/

structure LoopOut where
  emits : List (List Char)
  inSec : Bool
  cur : List Char
  buf : List Char
  deriving DecidableEq

/-- The while loop of the transform callback: take the leftmost delimiter;
before the first delimiter is ever seen the prefix is discarded and
`inSection` becomes true, afterwards each delimiter emits
`currentSection ++ prefix` as a completed section. -/
def scanLoopF : Nat → List Char → Bool → List Char → LoopOut
  | 0, b, sec, cur => ⟨[], sec, cur, b⟩
  | fuel + 1, b, sec, cur =>
    match indexOfToken DELIM b with
    | none => ⟨[], sec, cur, b⟩
    | some i =>
      if sec then
        let rest := scanLoopF fuel (b.drop (i + DELIM.length)) true []
        ⟨(cur ++ b.take i) :: rest.emits, rest.inSec, rest.cur, rest.buf⟩
      else
        scanLoopF fuel (b.drop (i + DELIM.length)) true cur

/-- The while loop with enough fuel for any input. -/
def scanLoop (b : List Char) (sec : Bool) (cur : List Char) : LoopOut :=
  scanLoopF b.length b sec cur

/-- State carried by the sectionExtractor Transform between chunks. -/
structure ScanState where
  buffer : List Char
  inSection : Bool
  currentSection : List Char
  deriving DecidableEq

/-- One transform(chunk) call: append the chunk to the carry-over buffer,
run the delimiter loop, then (exactly as the source does after its while
loop) move any remaining buffer into `currentSection` when in-section. -/
def feedChunk (st : ScanState) (chunk : List Char) : ScanState × List (List Char) :=
  let o := scanLoop (st.buffer ++ chunk) st.inSection st.currentSection
  if o.inSec then (⟨[], true, o.cur ++ o.buf⟩, o.emits)
  else (⟨o.buf, false, o.cur⟩, o.emits)

/-- Feed a list of chunks in order, collecting every emitted section. -/
def runFeedsFrom : ScanState → List (List Char) → ScanState × List (List Char)
  | st, [] => (st, [])
  | st, c :: rest =>
    let r1 := feedChunk st c
    let r2 := runFeedsFrom r1.1 rest
    (r2.1, r1.2 ++ r2.2)

/-- The scanner's initial state. -/
def initState : ScanState := ⟨[], false, []⟩

/-- Feed all chunks from the initial state. -/
def runFeeds (chunks : List (List Char)) : ScanState × List (List Char) :=
  runFeedsFrom initState chunks

/-- The flush callback: emit a final section only when in-section with a
non-empty accumulator. -/
def finishScan (st : ScanState) : List (List Char) :=
  if st.inSection && !st.currentSection.isEmpty then [st.currentSection] else []

/-- Complete output of the scanner: all sections emitted by the feed calls
followed by the flush. -/
def scanAll (chunks : List (List Char)) : List (List Char) :=
  (runFeeds chunks).2 ++ finishScan (runFeeds chunks).1

/-- One unit of credit while the scanner is in-section: entering the
in-section state consumed the first delimiter occurrence, which never
emits a section of its own. -/
def scanCredit (st : ScanState) : Nat :=
  if st.inSection then 1 else 0

/-- Invariant tying the scanner state to the input consumed so far: before
any delimiter is found nothing has been discarded (the buffer is the whole
consumed input, which is delimiter-free); once in-section, the feed loop
always ends with an empty carry-over buffer. -/
def ScanInv (st : ScanState) (consumed : List Char) : Prop :=
  (st.inSection = false ∧ st.buffer = consumed ∧ occCount DELIM consumed = 0) ∨
    (st.inSection = true ∧ st.buffer = [])

/-! ## Models of the JS string primitives the source uses -/

/-- JS String.prototype.split on a single separator character. -/
def splitOnChar (c : Char) : List Char → List (List Char)
  | [] => [[]]
  | x :: rest =>
    if x = c then [] :: splitOnChar c rest
    else
      match splitOnChar c rest with
      | [] => [[x]]
      | h :: t => (x :: h) :: t

/-- Whitespace characters stripped by JS String.prototype.trim. -/
def isJsWs (c : Char) : Bool :=
  c == ' ' || c == '\t' || c == '\n' || c == '\r' || c == '\u000B' ||
    c == '\u000C' || c == ' ' || c == '﻿'

/-- JS String.prototype.trim. -/
def jsTrim (s : List Char) : List Char :=
  ((s.dropWhile isJsWs).reverse.dropWhile isJsWs).reverse

/-- JS String.prototype.substring with both arguments clamped to the string
bounds and swapped when out of order. -/
def jsSubstring (s : List Char) (a b : Int) : List Char :=
  let n : Int := s.length
  let a2 := (min (max a 0) n).toNat
  let b2 := (min (max b 0) n).toNat
  (s.take (max a2 b2)).drop (min a2 b2)

/-- JS s.includes(tok), via indexOf. -/
def hasSub {α : Type} [DecidableEq α] (tok s : List α) : Bool :=
  (indexOfToken tok s).isSome

/-- The falsy-default idiom `s || d` for strings: the empty string and an
absent property (none) both fall back to the default. -/
def jsOrStr (o : Option (List Char)) (d : List Char) : List Char :=
  match o with
  | none => d
  | some s => if s = [] then d else s

/-- Leftmost position where the regex `\*\*%%.*$` (without the dotall flag)
matches: a `**%%` occurrence followed by no further line break. -/
def docuTailIdx : List Char → Option Nat
  | [] => none
  | c :: rest =>
    if tokenAt "**%%".toList (c :: rest) && !((c :: rest).drop 4).contains '\n' then some 0
    else (docuTailIdx rest).map (· + 1)

/-- JS replace of `\*\*%%.*$` (no dotall) by the empty string. -/
def stripDocuTail (s : List Char) : List Char :=
  match docuTailIdx s with
  | some p => s.take p
  | none => s

/-- JS replace of `\*\*%%.*$` with the dotall flag: everything from the
first `**%%` occurrence on is removed. -/
def stripDocuAllS (s : List Char) : List Char :=
  match indexOfToken "**%%".toList s with
  | some p => s.take p
  | none => s

/-- JS replace of `\*\*$` by the empty string: drop one final literal
star pair. -/
def stripTrailStars (s : List Char) : List Char :=
  if "**".toList.isSuffixOf s then s.take (s.length - 2) else s

/-! ## MetadataParser (parseMetadata, identical in src/index.ts:23-35 and
src/unnamed/part_000:111-121) -/

/-- JS object update for string keys: assigning an existing key replaces
its value in place (keeping its insertion position), a new key is
appended. -/
def setEntry : List (List Char × List Char) → List Char → List Char → List (List Char × List Char)
  | [], k, v => [(k, v)]
  | (k0, v0) :: rest, k, v =>
    if k0 = k then (k0, v) :: rest else (k0, v0) :: setEntry rest k v

/-- Property lookup on the metadata object; none models undefined. -/
def findVal (m : List (List Char × List Char)) (k : List Char) : Option (List Char) :=
  (m.find? (fun kv => kv.1 == k)).map (·.2)

/-- JS Array.prototype.join with a separator string. -/
def joinSep (sep : List Char) : List (List Char) → List Char
  | [] => []
  | [x] => x
  | x :: y :: rest => x ++ sep ++ joinSep sep (y :: rest)

/-- Loop body of parseMetadata: a line containing the separator `/` stores
trim(text before the first `/`) mapped to trim(text after the first `/`)
— the destructuring `[key, ...valueParts] = line.split('/')` followed by
`valueParts.join('/')` recovers exactly the text after the first
separator; other lines contribute nothing. -/
def parseMetadataLine (m : List (List Char × List Char)) (line : List Char) :
    List (List Char × List Char) :=
  if line.contains '/' then
    match splitOnChar '/' line with
    | [] => m
    | key :: valueParts =>
      setEntry m (jsTrim key) (jsTrim (joinSep ['/'] valueParts))
  else m

/-- parseMetadata: split the header block on line breaks and fold the
per-line store over the lines. -/
def parseMetadata (block : List Char) : List (List Char × List Char) :=
  (splitOnChar '\n' block).foldl parseMetadataLine []

/-- Serialization of a metadata mapping: one KEY/value line per entry, the
metadata line format of the archive grammar. -/
def serializeMetadata (m : List (List Char × List Char)) : List Char :=
  joinSep ['\n'] (m.map (fun kv => kv.1 ++ '/' :: kv.2))

/-! ## ContentNormalizer (processTextContent and processXMLContent,
identical in src/index.ts:163-250 and src/unnamed/part_000:186-252).
Buffer.toString decoding is an external capability passed in as
`decode`. -/

/-- Printable-ASCII-or-whitespace byte test of processTextContent. -/
def isTextByte (b : Nat) : Bool :=
  (0x20 ≤ b && b ≤ 0x7E) || b == 0x09 || b == 0x0A || b == 0x0D

/-- Length measured by the inner loop of processTextContent at offset i:
consecutive printable bytes starting at i, capped at 20. -/
def runLen (content : List Nat) (i : Nat) : Nat :=
  (((content.drop i).take 20).takeWhile isTextByte).length

/-- Offset chosen by strategy 1 of processTextContent: the first offset i
with i < length - 10 whose printable run reaches 10 bytes. -/
def cleanTextStart (content : List Nat) : Option Nat :=
  (List.range (content.length - 10)).find? (fun i => decide (10 ≤ runLen content i))

/-- A printable run of at least 10 bytes starts at offset i. -/
def hasRunAt (content : List Nat) (i : Nat) : Prop :=
  10 ≤ runLen content i

instance (c : List Nat) (i : Nat) : Decidable (hasRunAt c i) :=
  Nat.decLe 10 (runLen c i)

/-- Character class [\x20-\x7E -￿] of the leading-noise regex. -/
def isKeepChar (c : Char) : Bool :=
  (0x20 ≤ c.toNat && c.toNat ≤ 0x7E) || (0xA0 ≤ c.toNat && c.toNat ≤ 0xFFFF)

/-- JS replace of `^[^\x20-\x7E -￿]*` by the empty string. -/
def dropLeadingNonText (s : List Char) : List Char :=
  s.dropWhile (fun c => !isKeepChar c)

/-- The SIG marker as bytes, for Buffer.indexOf in strategy 2. -/
def SIGbytes : List Nat := SIG.map Char.toNat

/-- processTextContent: strategy 1 decodes from the first detected
printable run; strategy 2 decodes after a SIG marker found in the bytes;
strategy 3 decodes the whole buffer; each strategy strips trailing
delimiter remnants and trims. -/
def processTextContent (decode : List Nat → List Char) (content : List Nat) : List Char :=
  match cleanTextStart content with
  | some i => jsTrim (stripTrailStars (decode (content.drop i)))
  | none =>
    match indexOfToken SIGbytes content with
    | some k =>
      jsTrim (stripTrailStars (stripDocuAllS (dropLeadingNonText
        (decode (content.drop (k + SIGbytes.length))))))
    | none =>
      jsTrim (stripTrailStars (stripDocuAllS (dropLeadingNonText (decode content))))

/-- processXMLContent: slice from the first XML declaration or known root
element literal, strip trailing remnants and trim; otherwise return the
whole decoded content trimmed. -/
def processXMLContent (decode : List Nat → List Char) (content : List Nat) : List Char :=
  let contentStr := decode content
  match ((indexOfToken "<?xml".toList contentStr).orElse (fun _ =>
      (indexOfToken "<FORMINFO".toList contentStr).orElse (fun _ =>
        indexOfToken "<VALUATION_RESPONSE".toList contentStr))) with
  | some xmlStart => jsTrim (stripTrailStars (stripDocuTail (contentStr.drop xmlStart)))
  | none => jsTrim contentStr

/-- ASCII decoding; agrees with Buffer.toString of utf-8 on buffers whose
bytes are all below 0x80, and instantiates `decode` at concrete inputs. -/
def asciiDecode (bs : List Nat) : List Char := bs.map Char.ofNat

/-! ## RecordAssembler -/

structure EmbeddedFile where
  filename : List Char
  extension : List Char
  type : List Char
  doctype : List Char
  sha1 : List Char
  guid : List Char
  envGuid : List Char
  content : List Nat
  startLine : Nat
  endLine : Nat
  size : Nat
  deriving DecidableEq

/-- Abstract sharp codec capability: metadata() reports a detected format
or throws (none), and each re-encode call can likewise throw. -/
structure ImageCodec where
  format : List Nat → Option (List Char)
  toWebp : List Nat → Option (List Nat)
  toJpeg : List Nat → Option (List Nat)
  reencode : List Nat → Option (List Nat)

/-- A codec whose every call throws, exercising the documented fallback. -/
def failingCodec : ImageCodec :=
  ⟨fun _ => none, fun _ => none, fun _ => none, fun _ => none⟩

/-- Buffer.from(str, 'binary'): the low byte of each code point. -/
def latin1Bytes (s : List Char) : List Nat := s.map (fun c => c.toNat % 256)

/-- JS String.prototype.replace with a string pattern: first occurrence
only. -/
def replaceFirst (tok repl s : List Char) : List Char :=
  match indexOfToken tok s with
  | some i => s.take i ++ repl ++ s.drop (i + tok.length)
  | none => s

/-- The FILENAME fix-up of the webp branch: when the declared filename ends
in .jpg (undefined is falsy), its first .jpg occurrence becomes .webp. -/
def jpgFix (fname : Option (List Char)) : Option (List Char) :=
  match fname with
  | none => none
  | some f =>
    if ".jpg".toList.isSuffixOf f then some (replaceFirst ".jpg".toList ".webp".toList f)
    else some f

/-- The try block of the image branch; none models a sharp throw anywhere
inside it. -/
def tryImage (codec : ImageCodec) (bytes : List Nat) (fname : Option (List Char)) :
    Option (List Nat × Option (List Char)) :=
  (codec.format bytes).bind (fun f =>
    if f = "webp".toList then (codec.toWebp bytes).map (fun out => (out, jpgFix fname))
    else if f = "jpeg".toList then (codec.toJpeg bytes).map (fun out => (out, fname))
    else (codec.reencode bytes).map (fun out => (out, fname)))

/-- The catch fallback: manual byte-signature scan — RIFF magic first,
then the JPEG start-of-image marker — truncating to the first match. -/
def fallbackScan (bytes : List Nat) : List Nat :=
  match indexOfToken [0x52, 0x49, 0x46, 0x46] bytes with
  | some riffPos => bytes.drop riffPos
  | none =>
    match indexOfToken [0xFF, 0xD8] bytes with
    | some jpegPos => bytes.drop jpegPos
    | none => bytes

/-- Whole image branch: sharp processing, with the fallback scan on a
throw. -/
def imageNormalize (codec : ImageCodec) (bytes : List Nat) (fname : Option (List Char)) :
    List Nat × Option (List Char) :=
  match tryImage codec bytes fname with
  | some r => r
  | none => (fallbackScan bytes, fname)

/-- The image dispatch test: TYPE or DOCTYPE contains IMAGE (an absent
property is falsy). -/
def isImageMeta (m : List (List Char × List Char)) : Bool :=
  hasSub "IMAGE".toList ((findVal m "TYPE".toList).getD []) ||
    hasSub "IMAGE".toList ((findVal m "DOCTYPE".toList).getD [])

/-- processSectionToFile (src/index.ts:375-439), the streaming record
assembler; none models the null returned when the SIG marker is absent. -/
def processSectionToFile (codec : ImageCodec) (sectionContent : List Char) : Option EmbeddedFile :=
  match indexOfToken SIG sectionContent with
  | none => none
  | some sigIndex =>
    let metadata := parseMetadata (sectionContent.take sigIndex)
    let fileContent := stripTrailStars (stripDocuTail (sectionContent.drop (sigIndex + SIG.length)))
    let raw := latin1Bytes fileContent
    let r :=
      if isImageMeta metadata then imageNormalize codec raw (findVal metadata "FILENAME".toList)
      else (raw, findVal metadata "FILENAME".toList)
    some ⟨jsOrStr r.2 "unknown".toList,
      (findVal metadata "EXT".toList).getD [],
      (findVal metadata "TYPE".toList).getD [],
      (findVal metadata "DOCTYPE".toList).getD [],
      (findVal metadata "SHA1".toList).getD [],
      (findVal metadata "GUID".toList).getD [],
      (findVal metadata "ENV_GUID".toList).getD [],
      r.1, 0, 0, r.1.length⟩

/-- The fileProcessor and fileCollector stages of the streaming pipeline:
a record is pushed only when processSectionToFile returns non-null, and
every section is always processed. -/
def processAllSections (codec : ImageCodec) (sections : List (List Char)) : List EmbeddedFile :=
  sections.filterMap (processSectionToFile codec)

/-! ## The in-memory parser (parseCompoundFile, src/unnamed/part_000:43-110) -/

/-- JS String.prototype.split with a string separator.  Fuel bounds the
number of splits; the input length always suffices for a non-empty
separator. -/
def splitOnTokF (tok : List Char) : Nat → List Char → List (List Char)
  | 0, s => [s]
  | fuel + 1, s =>
    match indexOfToken tok s with
    | none => [s]
    | some i => s.take i :: splitOnTokF tok fuel (s.drop (i + tok.length))

/-- JS split with enough fuel for any input. -/
def splitOnTok (tok s : List Char) : List (List Char) := splitOnTokF tok s.length s

/-- calculateLineNumber (part_000:122-133). -/
def calculateLineNumber (fullContent sectionText : List Char) : Nat :=
  match indexOfToken sectionText fullContent with
  | none => 1
  | some sectionIndex => (fullContent.take sectionIndex).count '\n' + 1

/-- countLines (part_000:134-139). -/
def countLines (text : List Char) : Nat :=
  let lineCount := text.count '\n'
  if !text.isEmpty && !(text.getLast? == some '\n') then lineCount + 1 else lineCount

/-- The per-section body of the loop of parseCompoundFile in part_000
(lines 48-107).  The indexOf call is unguarded: when the SIG marker is
absent, sigIndex is -1, substring(0, -1) clamps to the empty metadata
block, the content starts at index 8 (-1 plus the marker length), and a
record is produced anyway. -/
def part000Section (codec : ImageCodec) (fullContent sectionText : List Char) : EmbeddedFile :=
  let sigIndex : Int := match indexOfToken SIG sectionText with
    | none => -1
    | some i => (i : Int)
  let metadata := parseMetadata (jsSubstring sectionText 0 sigIndex)
  let fileContent := stripTrailStars (stripDocuTail
    (jsSubstring sectionText (sigIndex + (SIG.length : Int)) sectionText.length))
  let raw := latin1Bytes fileContent
  let r :=
    if isImageMeta metadata then imageNormalize codec raw (findVal metadata "FILENAME".toList)
    else (raw, findVal metadata "FILENAME".toList)
  ⟨jsOrStr r.2 "unknown".toList,
    (findVal metadata "EXT".toList).getD [],
    (findVal metadata "TYPE".toList).getD [],
    (findVal metadata "DOCTYPE".toList).getD [],
    (findVal metadata "SHA1".toList).getD [],
    (findVal metadata "GUID".toList).getD [],
    (findVal metadata "ENV_GUID".toList).getD [],
    r.1,
    calculateLineNumber fullContent sectionText,
    calculateLineNumber fullContent sectionText + countLines sectionText,
    r.1.length⟩

/-- parseCompoundFile of part_000: split the whole content on the
delimiter, skip the pre-header part, assemble every remaining section. -/
def parseCompoundFileMem (codec : ImageCodec) (content : List Char) : List EmbeddedFile :=
  ((splitOnTok DELIM content).drop 1).map (part000Section codec content)

/-! ## DiskExtractor -/

/-- Character class [<>:"/\\|?*] of the sanitizing regex. -/
def isBadChar (c : Char) : Bool :=
  c == '<' || c == '>' || c == ':' || c == '"' || c == '/' || c == '\\' ||
    c == '|' || c == '?' || c == '*'

/-- JS global replace of that class by an underscore. -/
def replaceBadChars (s : List Char) : List Char :=
  s.map (fun c => if isBadChar c then '_' else c)

/-- JS global replace of `\.\.` by an underscore: one left-to-right pass
replacing each non-overlapping dot pair. -/
def replaceDotDot : List Char → List Char
  | '.' :: '.' :: rest => '_' :: replaceDotDot rest
  | c :: rest => c :: replaceDotDot rest
  | [] => []

/-- Filename sanitization of extractFilesToDisk (src/index.ts:105-107). -/
def sanitizeFilename (f : List Char) : List Char :=
  replaceDotDot (replaceBadChars f)

/-- The generated fallback name for a falsy filename: the literal unknown_
followed by the first eight guid characters and the extension. -/
def sentinelName (f : EmbeddedFile) : List Char :=
  "unknown_".toList ++ f.guid.take 8 ++ f.extension

/-- Stack-based segment normalization of Node path.join: empty and dot
segments vanish; a dot-dot segment pops a previous segment, is dropped at
the root of an absolute path, and is kept at the head of a relative
path. -/
def normSegs (isAbs : Bool) : List (List Char) → List (List Char) → List (List Char)
  | stack, [] => stack.reverse
  | stack, seg :: rest =>
    if seg = [] ∨ seg = ['.'] then normSegs isAbs stack rest
    else if seg = ['.', '.'] then
      match stack with
      | top :: stackRest =>
        if top = ['.', '.'] then normSegs isAbs (seg :: stack) rest
        else normSegs isAbs stackRest rest
      | [] => if isAbs then normSegs isAbs [] rest else normSegs isAbs [seg] rest
    else normSegs isAbs (seg :: stack) rest

/-- Node path.join of two parts: concatenate with a separator and
normalize.  (Trailing-separator preservation is not modelled; no caller
here passes a path ending in a separator.) -/
def jsPathJoin (a b : List Char) : List Char :=
  let isAbs := a.head? == some '/'
  let segs := normSegs isAbs [] (splitOnChar '/' (a ++ '/' :: b))
  match segs with
  | [] => if isAbs then ['/'] else ['.']
  | _ => (if isAbs then ['/'] else []) ++ List.intercalate ['/'] segs

/-- Per-record outcome of an extraction loop; write failures are
abstracted by a `fails` predicate on paths. -/
inductive WriteOutcome where
  | written (path : List Char) (data : (List Char) ⊕ (List Nat))
  | skippedSuspicious (filename : List Char)
  | writeFailed (path : List Char)
  deriving DecidableEq

/-- Content dispatch shared by both extractors: images and unknown types
keep raw bytes, text and XML records are decoded and cleaned. -/
def dispatchContent (decode : List Nat → List Char) (f : EmbeddedFile) :
    (List Char) ⊕ (List Nat) :=
  if hasSub "IMAGE".toList f.type || hasSub "IMAGE".toList f.doctype then Sum.inr f.content
  else if f.extension == ".txt".toList || hasSub "PLAINTEXT".toList f.type then
    Sum.inl (processTextContent decode f.content)
  else if hasSub "XML".toList f.type || hasSub "FORM".toList f.doctype then
    Sum.inl (processXMLContent decode f.content)
  else Sum.inr f.content

/-- The per-record loop of extractFilesToDisk in src/index.ts:102-153:
sanitization, the textual containment check (skip with a warning on
failure), and a per-file try/catch around the write, so the loop always
reaches every record. -/
def extractFilesToDisk (decode : List Nat → List Char) (fails : List Char → Bool)
    (absRoot : List Char) (files : List EmbeddedFile) : List WriteOutcome :=
  files.map (fun f =>
    let sanitized := if f.filename.isEmpty then sentinelName f else sanitizeFilename f.filename
    let outputPath := jsPathJoin absRoot sanitized
    if !(tokenAt absRoot outputPath) then WriteOutcome.skippedSuspicious f.filename
    else if fails outputPath then WriteOutcome.writeFailed outputPath
    else WriteOutcome.written outputPath (dispatchContent decode f))

/-- extractFilesToDisk of part_000 (lines 140-185): no sanitization, no
containment check, and no per-file try/catch — the first write failure
escapes to the outer catch and is rethrown, abandoning the rest of the
batch.  Returns the outcomes produced before the failure and the path
whose write failed, if any. -/
def extractFilesToDiskMem (decode : List Nat → List Char) (fails : List Char → Bool)
    (outputDir : List Char) : List EmbeddedFile → List WriteOutcome × Option (List Char)
  | [] => ([], none)
  | f :: rest =>
    let outputFilename := if f.filename.isEmpty then sentinelName f else f.filename
    let outputPath := jsPathJoin outputDir outputFilename
    if fails outputPath then ([], some outputPath)
    else
      let r := extractFilesToDiskMem decode fails outputDir rest
      (WriteOutcome.written outputPath (dispatchContent decode f) :: r.1, r.2)

/-! ## Theorems -/

/-! ### Token and occurrence-count lemmas -/

theorem tokenAt_eq_true_iff {α : Type} [DecidableEq α] (tok : List α) :
    ∀ s : List α, tokenAt tok s = true ↔ s.take tok.length = tok := by
  induction tok with
  | nil => intro s; simp [tokenAt]
  | cons a t ih =>
    intro s
    cases s with
    | nil => simp [tokenAt]
    | cons b s2 =>
      by_cases hab : a = b
      · subst hab
        have h1 : tokenAt (a :: t) (a :: s2) = tokenAt t s2 := by simp [tokenAt]
        rw [h1, ih s2, List.length_cons, List.take_succ_cons]
        simp
      · simp only [tokenAt, if_neg hab, List.length_cons, List.take_succ_cons,
          Bool.false_eq_true, false_iff]
        intro h
        exact hab (((List.cons.injEq b _ a t).mp h).1.symm)

theorem tokenAt_length_le {α : Type} [DecidableEq α] {tok s : List α}
    (h : tokenAt tok s = true) : tok.length ≤ s.length := by
  rw [tokenAt_eq_true_iff] at h
  have := congrArg List.length h
  simp [List.length_take] at this
  omega

theorem tokenAt_append_of_tokenAt {α : Type} [DecidableEq α] {tok s : List α} (r : List α)
    (h : tokenAt tok s = true) : tokenAt tok (s ++ r) = true := by
  have hle := tokenAt_length_le h
  rw [tokenAt_eq_true_iff] at h ⊢
  rw [List.take_append_of_le_length hle, h]

theorem tokenAt_self_append {α : Type} [DecidableEq α] (tok r : List α) :
    tokenAt tok (tok ++ r) = true := by
  rw [tokenAt_eq_true_iff, List.take_left]

theorem indexOfToken_none_spec {α : Type} [DecidableEq α] {tok : List α} :
    ∀ {s : List α}, indexOfToken tok s = none → ∀ p, tokenAt tok (s.drop p) = false := by
  intro s
  induction s with
  | nil =>
    intro h p
    simp only [indexOfToken] at h
    simp only [List.drop_nil]
    by_cases hb : tokenAt tok ([] : List α) = true
    · rw [hb] at h; simp at h
    · simpa using hb
  | cons b s2 ih =>
    intro h p
    simp only [indexOfToken] at h
    by_cases hb : tokenAt tok (b :: s2) = true
    · rw [if_pos hb] at h; simp at h
    · rw [if_neg hb] at h
      cases p with
      | zero => simpa using hb
      | succ q =>
        have h2 : indexOfToken tok s2 = none := by
          cases hidx : indexOfToken tok s2 with
          | none => rfl
          | some j => rw [hidx] at h; simp at h
        simpa using ih h2 q

theorem indexOfToken_some_spec {α : Type} [DecidableEq α] {tok : List α} :
    ∀ {s : List α} {i : Nat}, indexOfToken tok s = some i →
      tokenAt tok (s.drop i) = true ∧ ∀ p < i, tokenAt tok (s.drop p) = false := by
  intro s
  induction s with
  | nil =>
    intro i h
    simp only [indexOfToken] at h
    by_cases hb : tokenAt tok ([] : List α) = true
    · rw [if_pos hb] at h
      obtain rfl : i = 0 := by simpa using h.symm
      exact ⟨by simpa using hb, by omega⟩
    · rw [if_neg hb] at h; simp at h
  | cons b s2 ih =>
    intro i h
    simp only [indexOfToken] at h
    by_cases hb : tokenAt tok (b :: s2) = true
    · rw [if_pos hb] at h
      obtain rfl : i = 0 := by simpa using h.symm
      exact ⟨by simpa using hb, by omega⟩
    · rw [if_neg hb] at h
      cases hidx : indexOfToken tok s2 with
      | none => rw [hidx] at h; simp at h
      | some j =>
        rw [hidx] at h
        obtain rfl : i = j + 1 := by simpa using h.symm
        obtain ⟨h1, h2⟩ := ih hidx
        refine ⟨by simpa using h1, ?_⟩
        intro p hp
        cases p with
        | zero => simpa using hb
        | succ q => simpa using h2 q (by omega)

theorem occCount_eq_zero_of_none {α : Type} [DecidableEq α] {tok : List α} :
    ∀ {s : List α}, indexOfToken tok s = none → occCount tok s = 0 := by
  intro s
  induction s with
  | nil => intro _; rfl
  | cons b s2 ih =>
    intro h
    simp only [indexOfToken] at h
    by_cases hb : tokenAt tok (b :: s2) = true
    · rw [if_pos hb] at h; simp at h
    · rw [if_neg hb] at h
      have h2 : indexOfToken tok s2 = none := by
        cases hidx : indexOfToken tok s2 with
        | none => rfl
        | some j => rw [hidx] at h; simp at h
      simp only [occCount, ih h2]
      rw [if_neg hb]

theorem occCount_cons {α : Type} [DecidableEq α] (tok : List α) (c : α) (s : List α) :
    occCount tok (c :: s) = (if tokenAt tok (c :: s) then 1 else 0) + occCount tok s := rfl

theorem occCount_append_ge {α : Type} [DecidableEq α] (tok : List α) :
    ∀ a b : List α, occCount tok a + occCount tok b ≤ occCount tok (a ++ b) := by
  intro a
  induction a with
  | nil => intro b; simp [occCount]
  | cons c a2 ih =>
    intro b
    have hstep := ih b
    rw [List.cons_append, occCount_cons tok c (a2 ++ b), occCount_cons tok c a2]
    by_cases hc : tokenAt tok (c :: a2) = true
    · have hca : tokenAt tok (c :: (a2 ++ b)) = true := by
        have := tokenAt_append_of_tokenAt b hc
        rwa [List.cons_append] at this
      rw [if_pos hc, if_pos hca]
      omega
    · rw [if_neg hc]
      split <;> omega

theorem occCount_append_no_occur {α : Type} [DecidableEq α] (tok : List α) :
    ∀ (u w : List α), (∀ p < u.length, tokenAt tok ((u ++ w).drop p) = false) →
      occCount tok (u ++ w) = occCount tok w := by
  intro u
  induction u with
  | nil => intro w _; simp
  | cons c u2 ih =>
    intro w h
    rw [List.cons_append, occCount_cons tok c (u2 ++ w)]
    have h0 : tokenAt tok (c :: (u2 ++ w)) = false := by
      have := h 0 (by simp)
      rwa [List.cons_append, List.drop_zero] at this
    rw [if_neg (by simp [h0]),
      ih w (fun p hp => by
        have := h (p + 1) (by simpa using Nat.succ_lt_succ hp)
        rwa [List.cons_append, List.drop_succ_cons] at this)]
    simp

/-! ### Delimiter-specific occurrence lemmas.  The delimiter token has no
non-trivial border (no proper prefix equals a suffix), so occurrences
cannot overlap and the scanner's skip of the full token length after each
find accounts for every occurrence exactly once. -/

theorem delim_no_border : ∀ p < 7, DELIM.drop (p + 1) ≠ DELIM.take (7 - p) := by decide

theorem occCount_delim_self_append (r : List Char) :
    occCount DELIM (DELIM ++ r) = 1 + occCount DELIM r := by
  have key : DELIM ++ r = '*' :: ("*%%DOCU".toList ++ r) := rfl
  rw [key, occCount_cons]
  have h1 : tokenAt DELIM ('*' :: ("*%%DOCU".toList ++ r)) = true := by
    rw [← key]
    exact tokenAt_self_append DELIM r
  rw [if_pos h1]
  have h2 : occCount DELIM ("*%%DOCU".toList ++ r) = occCount DELIM r := by
    apply occCount_append_no_occur
    intro p hp
    have hp7 : p < 7 := by simpa using hp
    cases hvb : tokenAt DELIM (("*%%DOCU".toList ++ r).drop p) with
    | false => rfl
    | true =>
      exfalso
      have htrue : tokenAt DELIM ("*%%DOCU".toList.drop p ++ r) = true := by
        rwa [List.drop_append_of_le_length (by simpa using Nat.le_of_lt hp7)] at hvb
      rw [tokenAt_eq_true_iff] at htrue
      have hlen : ("*%%DOCU".toList.drop p).length = 7 - p := by
        simp [List.length_drop]
      have e1 : ("*%%DOCU".toList.drop p ++ r).take (7 - p) = "*%%DOCU".toList.drop p := by
        rw [List.take_append_of_le_length (by omega), List.take_of_length_le (by omega)]
      have e2 : ("*%%DOCU".toList.drop p ++ r).take (7 - p) = DELIM.take (7 - p) := by
        rw [← htrue, List.take_take]
        congr 1
        have hdl : DELIM.length = 8 := rfl
        omega
      have e3 : "*%%DOCU".toList.drop p = DELIM.drop (p + 1) := by
        have hth : "*%%DOCU".toList = DELIM.drop 1 := rfl
        rw [hth, List.drop_drop, Nat.add_comm]
      exact delim_no_border p hp7 (by rw [← e3, ← e1, e2])
  rw [h2]

theorem occCount_delim_split {b : List Char} {i : Nat}
    (h : indexOfToken DELIM b = some i) :
    occCount DELIM b = 1 + occCount DELIM (b.drop (i + DELIM.length)) := by
  obtain ⟨hat, hmin⟩ := indexOfToken_some_spec h
  have hidrop : b.drop i = DELIM ++ b.drop (i + DELIM.length) := by
    rw [tokenAt_eq_true_iff] at hat
    have : b.drop i = (b.drop i).take DELIM.length ++ (b.drop i).drop DELIM.length := by
      rw [List.take_append_drop]
    rw [this, hat, List.drop_drop]
  have hb : b = b.take i ++ (DELIM ++ b.drop (i + DELIM.length)) := by
    rw [← hidrop, List.take_append_drop]
  calc occCount DELIM b
      = occCount DELIM (b.take i ++ (DELIM ++ b.drop (i + DELIM.length))) := by rw [← hb]
    _ = occCount DELIM (DELIM ++ b.drop (i + DELIM.length)) := by
        apply occCount_append_no_occur
        intro p hp
        have hpi : p < i := by
          have := List.length_take i b
          omega
        have := hmin p hpi
        rwa [← hb]
    _ = 1 + occCount DELIM (b.drop (i + DELIM.length)) := occCount_delim_self_append _

theorem indexOfToken_delim_none_of_occ_zero {b : List Char}
    (h : occCount DELIM b = 0) : indexOfToken DELIM b = none := by
  cases hidx : indexOfToken DELIM b with
  | none => rfl
  | some i =>
    have := occCount_delim_split hidx
    omega

/-! ### Specification of the scanner's while loop and feed calls -/

theorem scanLoopF_succ_none {fuel : Nat} {b : List Char} {sec : Bool} {cur : List Char}
    (h : indexOfToken DELIM b = none) :
    scanLoopF (fuel + 1) b sec cur = ⟨[], sec, cur, b⟩ := by
  simp [scanLoopF, h]

theorem scanLoopF_succ_some_true {fuel : Nat} {b : List Char} {cur : List Char} {i : Nat}
    (h : indexOfToken DELIM b = some i) :
    scanLoopF (fuel + 1) b true cur =
      ⟨(cur ++ b.take i) :: (scanLoopF fuel (b.drop (i + DELIM.length)) true []).emits,
        (scanLoopF fuel (b.drop (i + DELIM.length)) true []).inSec,
        (scanLoopF fuel (b.drop (i + DELIM.length)) true []).cur,
        (scanLoopF fuel (b.drop (i + DELIM.length)) true []).buf⟩ := by
  simp [scanLoopF, h]

theorem scanLoopF_succ_some_false {fuel : Nat} {b : List Char} {cur : List Char} {i : Nat}
    (h : indexOfToken DELIM b = some i) :
    scanLoopF (fuel + 1) b false cur = scanLoopF fuel (b.drop (i + DELIM.length)) true cur := by
  simp [scanLoopF, h]

theorem scanLoopF_spec :
    ∀ (fuel : Nat) (b : List Char) (cur : List Char), b.length ≤ fuel →
      ((scanLoopF fuel b true cur).emits.length = occCount DELIM b ∧
        (scanLoopF fuel b true cur).inSec = true) ∧
      (occCount DELIM b = 0 → scanLoopF fuel b false cur = ⟨[], false, cur, b⟩) ∧
      (occCount DELIM b ≠ 0 →
        (scanLoopF fuel b false cur).emits.length = occCount DELIM b - 1 ∧
        (scanLoopF fuel b false cur).inSec = true) := by
  intro fuel
  induction fuel with
  | zero =>
    intro b cur hlen
    have hb : b = [] := List.eq_nil_of_length_eq_zero (by omega)
    subst hb
    exact ⟨⟨rfl, rfl⟩, fun _ => rfl, fun hocc => absurd rfl hocc⟩
  | succ fuel ih =>
    intro b cur hlen
    cases hidx : indexOfToken DELIM b with
    | none =>
      have hocc : occCount DELIM b = 0 := occCount_eq_zero_of_none hidx
      refine ⟨?_, fun _ => scanLoopF_succ_none hidx, fun hne => absurd hocc hne⟩
      rw [scanLoopF_succ_none hidx, hocc]
      exact ⟨rfl, rfl⟩
    | some i =>
      have hocc := occCount_delim_split hidx
      have hrest : (b.drop (i + DELIM.length)).length ≤ fuel := by
        have h1 : (b.drop (i + DELIM.length)).length = b.length - (i + DELIM.length) :=
          List.length_drop _ _
        have h2 : DELIM.length = 8 := rfl
        omega
      refine ⟨?_, fun hzero => by omega, fun _ => ?_⟩
      · have hr := (ih (b.drop (i + DELIM.length)) [] hrest).1
        rw [scanLoopF_succ_some_true hidx]
        constructor
        · show ((cur ++ b.take i) ::
              (scanLoopF fuel (b.drop (i + DELIM.length)) true []).emits).length =
            occCount DELIM b
          rw [List.length_cons, hr.1]
          omega
        · exact hr.2
      · have hr := (ih (b.drop (i + DELIM.length)) cur hrest).1
        rw [scanLoopF_succ_some_false hidx]
        exact ⟨by rw [hr.1]; omega, hr.2⟩

theorem scanLoop_inSec_spec (b cur : List Char) :
    (scanLoop b true cur).emits.length = occCount DELIM b ∧
      (scanLoop b true cur).inSec = true :=
  (scanLoopF_spec b.length b cur (Nat.le_refl _)).1

theorem scanLoop_awaiting_zero {b : List Char} (cur : List Char)
    (h : occCount DELIM b = 0) : scanLoop b false cur = ⟨[], false, cur, b⟩ :=
  (scanLoopF_spec b.length b cur (Nat.le_refl _)).2.1 h

theorem scanLoop_awaiting_pos {b : List Char} (cur : List Char)
    (h : occCount DELIM b ≠ 0) :
    (scanLoop b false cur).emits.length = occCount DELIM b - 1 ∧
      (scanLoop b false cur).inSec = true :=
  (scanLoopF_spec b.length b cur (Nat.le_refl _)).2.2 h

theorem feedChunk_def (buf : List Char) (sec : Bool) (cur chunk : List Char) :
    feedChunk ⟨buf, sec, cur⟩ chunk =
      if (scanLoop (buf ++ chunk) sec cur).inSec then
        (⟨[], true,
            (scanLoop (buf ++ chunk) sec cur).cur ++ (scanLoop (buf ++ chunk) sec cur).buf⟩,
          (scanLoop (buf ++ chunk) sec cur).emits)
      else
        (⟨(scanLoop (buf ++ chunk) sec cur).buf, false, (scanLoop (buf ++ chunk) sec cur).cur⟩,
          (scanLoop (buf ++ chunk) sec cur).emits) := rfl

theorem feedChunk_step (st : ScanState) (C c : List Char)
    (hInv : ScanInv st C) (hcr : scanCredit st ≤ occCount DELIM C) :
    ScanInv (feedChunk st c).1 (C ++ c) ∧
      (feedChunk st c).2.length + scanCredit (feedChunk st c).1 + occCount DELIM C ≤
        occCount DELIM (C ++ c) + scanCredit st ∧
      scanCredit st ≤ scanCredit (feedChunk st c).1 ∧
      ((feedChunk st c).2 ≠ [] → scanCredit (feedChunk st c).1 = 1) ∧
      scanCredit (feedChunk st c).1 ≤ occCount DELIM (C ++ c) := by
  obtain ⟨buf, sec, cur⟩ := st
  have hsuper := occCount_append_ge DELIM C c
  rcases hInv with ⟨hsec, hbuf, hocc⟩ | ⟨hsec, hbuf⟩
  · dsimp only at hsec hbuf
    subst hsec
    subst hbuf
    by_cases hz : occCount DELIM (buf ++ c) = 0
    · have ho := scanLoop_awaiting_zero (b := buf ++ c) cur hz
      rw [feedChunk_def, ho]
      rw [if_neg (by intro hcon; exact Bool.false_ne_true hcon)]
      refine ⟨Or.inl ⟨rfl, rfl, hz⟩, ?_, ?_, ?_, ?_⟩
      · show ([] : List (List Char)).length + scanCredit ⟨buf ++ c, false, cur⟩ +
            occCount DELIM buf ≤ occCount DELIM (buf ++ c) + scanCredit ⟨buf, false, cur⟩
        have e1 : scanCredit ⟨buf ++ c, false, cur⟩ = 0 := rfl
        have e2 : scanCredit (⟨buf, false, cur⟩ : ScanState) = 0 := rfl
        rw [e1, e2, List.length_nil]
        omega
      · exact Nat.le_refl _
      · intro h; exact absurd rfl h
      · show scanCredit ⟨buf ++ c, false, cur⟩ ≤ occCount DELIM (buf ++ c)
        have e1 : scanCredit ⟨buf ++ c, false, cur⟩ = 0 := rfl
        omega
    · obtain ⟨hlen, hsec2⟩ := scanLoop_awaiting_pos (b := buf ++ c) cur hz
      rw [feedChunk_def, if_pos hsec2]
      refine ⟨Or.inr ⟨rfl, rfl⟩, ?_, ?_, fun _ => rfl, ?_⟩
      · show (scanLoop (buf ++ c) false cur).emits.length + scanCredit ⟨[], true, _⟩ +
            occCount DELIM buf ≤ occCount DELIM (buf ++ c) + scanCredit ⟨buf, false, cur⟩
        have e1 : ∀ x, scanCredit ⟨[], true, x⟩ = 1 := fun _ => rfl
        have e2 : scanCredit (⟨buf, false, cur⟩ : ScanState) = 0 := rfl
        rw [hlen, e1, e2, hocc]
        omega
      · show scanCredit (⟨buf, false, cur⟩ : ScanState) ≤ 1
        have e2 : scanCredit (⟨buf, false, cur⟩ : ScanState) = 0 := rfl
        omega
      · show scanCredit ⟨[], true, _⟩ ≤ occCount DELIM (buf ++ c)
        have e1 : ∀ x, scanCredit ⟨[], true, x⟩ = 1 := fun _ => rfl
        rw [e1]
        omega
  · dsimp only at hsec hbuf
    subst hsec
    subst hbuf
    obtain ⟨hlen, hsec2⟩ := scanLoop_inSec_spec ([] ++ c) cur
    rw [feedChunk_def, if_pos hsec2]
    have hc : occCount DELIM ([] ++ c) = occCount DELIM c := by rw [List.nil_append]
    have e1 : ∀ x, scanCredit ⟨[], true, x⟩ = 1 := fun _ => rfl
    have e2 : ∀ x y, scanCredit (⟨x, true, y⟩ : ScanState) = 1 := fun _ _ => rfl
    refine ⟨Or.inr ⟨rfl, rfl⟩, ?_, ?_, fun _ => rfl, ?_⟩
    · rw [hlen, e1, e2, hc]
      omega
    · rw [e1, e2]
    · rw [e1]
      have h1 : scanCredit (⟨[], true, cur⟩ : ScanState) = 1 := rfl
      rw [h1] at hcr
      omega

theorem runFeedsFrom_bound :
    ∀ (chunks : List (List Char)) (st : ScanState) (C : List Char),
      ScanInv st C → scanCredit st ≤ occCount DELIM C →
      ScanInv (runFeedsFrom st chunks).1 (C ++ chunks.flatten) ∧
        (runFeedsFrom st chunks).2.length + scanCredit (runFeedsFrom st chunks).1 +
            occCount DELIM C ≤
          occCount DELIM (C ++ chunks.flatten) + scanCredit st ∧
        scanCredit st ≤ scanCredit (runFeedsFrom st chunks).1 ∧
        ((runFeedsFrom st chunks).2 ≠ [] → scanCredit (runFeedsFrom st chunks).1 = 1) := by
  intro chunks
  induction chunks with
  | nil =>
    intro st C hInv hcr
    simp only [runFeedsFrom, List.flatten_nil, List.append_nil, List.length_nil]
    exact ⟨hInv, by omega, Nat.le_refl _, fun h => absurd rfl h⟩
  | cons c rest ih =>
    intro st C hInv hcr
    obtain ⟨h1, h2, h3, h4, h5⟩ := feedChunk_step st C c hInv hcr
    obtain ⟨g1, g2, g3, g4⟩ := ih (feedChunk st c).1 (C ++ c) h1 h5
    simp only [runFeedsFrom]
    constructor
    · rw [List.flatten_cons, ← List.append_assoc]
      exact g1
    refine ⟨?_, ?_, ?_⟩
    · simp only [List.length_append]
      rw [List.flatten_cons, ← List.append_assoc]
      omega
    · omega
    · intro hne
      by_cases hr2 : (runFeedsFrom (feedChunk st c).1 rest).2 = []
      · have hr1 : (feedChunk st c).2 ≠ [] := by
          intro h0
          exact hne (by rw [h0, hr2]; rfl)
        have hc1 := h4 hr1
        have hle1 : scanCredit (runFeedsFrom (feedChunk st c).1 rest).1 ≤ 1 := by
          unfold scanCredit
          split <;> omega
        omega
      · exact g4 hr2

/-- C7: for every chunking of the input, the feed calls emit at most N - 1
sections, where N is the number of delimiter occurrences in the whole
input; finish emits at most one more section; and when N is zero or one
the feed calls emit no sections at all. -/
theorem scanner_emission_bound (chunks : List (List Char)) :
    (runFeeds chunks).2.length ≤ occCount DELIM chunks.flatten - 1 ∧
      (finishScan (runFeeds chunks).1).length ≤ 1 ∧
      (occCount DELIM chunks.flatten ≤ 1 → (runFeeds chunks).2.length = 0) := by
  have hInv0 : ScanInv initState [] := Or.inl ⟨rfl, rfl, rfl⟩
  obtain ⟨g1, g2, g3, g4⟩ := runFeedsFrom_bound chunks initState [] hInv0 (Nat.le_refl 0)
  have hrf : runFeeds chunks = runFeedsFrom initState chunks := rfl
  have h0 : occCount DELIM ([] : List Char) = 0 := rfl
  have hci : scanCredit initState = 0 := rfl
  rw [List.nil_append] at g2
  rw [h0, hci] at g2
  have hmain : (runFeeds chunks).2.length ≤ occCount DELIM chunks.flatten - 1 := by
    rw [hrf]
    by_cases he : (runFeedsFrom initState chunks).2 = []
    · rw [he]
      simp
    · have h4 := g4 he
      omega
  refine ⟨hmain, ?_, fun hle => by rw [hrf] at hmain ⊢; omega⟩
  unfold finishScan
  split
  · simp
  · simp

/-- Witness for the emission bound, at a two-chunk input with two
delimiters and at a one-chunk input with a single delimiter. -/
theorem scanner_emission_bound_witness :
    (runFeeds ["**%%DOCUx".toList, "y**%%DOCUz".toList]).2.length ≤
        occCount DELIM (["**%%DOCUx".toList, "y**%%DOCUz".toList] : List (List Char)).flatten - 1 ∧
      (runFeeds ["ab**%%DOCUcd".toList]).2.length = 0 :=
  ⟨(scanner_emission_bound _).1, (scanner_emission_bound _).2.2 (by decide)⟩

theorem runFeedsFrom_noDelim :
    ∀ (chunks : List (List Char)) (st : ScanState),
      st.inSection = false →
      occCount DELIM (st.buffer ++ chunks.flatten) = 0 →
      runFeedsFrom st chunks = (⟨st.buffer ++ chunks.flatten, false, st.currentSection⟩, []) := by
  intro chunks
  induction chunks with
  | nil =>
    intro st hsec hocc
    obtain ⟨buf, sec, cur⟩ := st
    dsimp only at hsec ⊢
    subst hsec
    simp [runFeedsFrom]
  | cons c rest ih =>
    intro st hsec hocc
    obtain ⟨buf, sec, cur⟩ := st
    dsimp only at hsec hocc ⊢
    subst hsec
    have hocc2 : occCount DELIM ((buf ++ c) ++ rest.flatten) = 0 := by
      rw [List.append_assoc]
      simpa [List.flatten_cons] using hocc
    have hz : occCount DELIM (buf ++ c) = 0 := by
      have := occCount_append_ge DELIM (buf ++ c) rest.flatten
      omega
    have ho := scanLoop_awaiting_zero (b := buf ++ c) cur hz
    have hfeed : feedChunk ⟨buf, false, cur⟩ c = (⟨buf ++ c, false, cur⟩, []) := by
      rw [feedChunk_def, ho]
      rw [if_neg (fun hcon => Bool.false_ne_true hcon)]
    simp only [runFeedsFrom]
    rw [hfeed]
    have hrec := ih ⟨buf ++ c, false, cur⟩ rfl hocc2
    dsimp only at hrec
    rw [hrec]
    simp [List.flatten_cons, List.append_assoc]

theorem splitOnTok_no_occurrence {s : List Char}
    (h : indexOfToken DELIM s = none) : splitOnTok DELIM s = [s] := by
  unfold splitOnTok
  cases hl : s.length with
  | zero => rfl
  | succ n => simp [splitOnTokF, h]

/-- C10: when the delimiter token never occurs in the input, the streaming
scanner emits no section from any feed call or from the final flush, and
the in-memory parser returns the empty record list: parsing succeeds and
yields no records. -/
theorem no_delimiter_no_records (codec : ImageCodec) (chunks : List (List Char))
    (h : occCount DELIM chunks.flatten = 0) :
    scanAll chunks = [] ∧ parseCompoundFileMem codec chunks.flatten = [] := by
  have hrun := runFeedsFrom_noDelim chunks initState rfl (by simpa using h)
  constructor
  · unfold scanAll runFeeds
    rw [hrun]
    rfl
  · have hidx : indexOfToken DELIM chunks.flatten = none :=
      indexOfToken_delim_none_of_occ_zero h
    unfold parseCompoundFileMem
    rw [splitOnTok_no_occurrence hidx]
    rfl

/-- Witness for the delimiter-free input: two chunks of plain text yield
no sections and no records. -/
theorem no_delimiter_no_records_witness :
    scanAll ["hello ".toList, "world".toList] = [] ∧
      parseCompoundFileMem failingCodec
        (["hello ".toList, "world".toList] : List (List Char)).flatten = [] :=
  no_delimiter_no_records failingCodec _ (by decide)

/-! ### Split/join lemmas for the metadata parser -/

theorem splitOnChar_ne_nil (c : Char) (s : List Char) : splitOnChar c s ≠ [] := by
  cases s with
  | nil => simp [splitOnChar]
  | cons x rest =>
    simp only [splitOnChar]
    split
    · simp
    · split <;> simp

theorem splitOnChar_eq_single {c : Char} : ∀ {line : List Char}, c ∉ line →
    splitOnChar c line = [line] := by
  intro line
  induction line with
  | nil => intro _; rfl
  | cons x rest ih =>
    intro h
    have hx : x ≠ c := fun hxc => h (hxc ▸ List.mem_cons_self x rest)
    have hr : c ∉ rest := fun hc => h (List.mem_cons_of_mem x hc)
    simp only [splitOnChar, if_neg hx, ih hr]

theorem splitOnChar_cons_ne {c x : Char} (rest : List Char) (hx : x ≠ c) :
    splitOnChar c (x :: rest) =
      match splitOnChar c rest with
      | [] => [[x]]
      | h :: t => (x :: h) :: t := by
  simp [splitOnChar, if_neg hx]

theorem splitOnChar_append_first {c : Char} :
    ∀ {pre : List Char} (post : List Char), c ∉ pre →
      splitOnChar c (pre ++ c :: post) = pre :: splitOnChar c post := by
  intro pre
  induction pre with
  | nil => intro post _; simp [splitOnChar]
  | cons x pre2 ih =>
    intro post h
    have hx : x ≠ c := fun hxc => h (hxc ▸ List.mem_cons_self x pre2)
    have hr : c ∉ pre2 := fun hc => h (List.mem_cons_of_mem x hc)
    rw [List.cons_append, splitOnChar_cons_ne _ hx, ih post hr]

theorem joinSep_splitOnChar (c : Char) : ∀ s : List Char, joinSep [c] (splitOnChar c s) = s := by
  intro s
  induction s with
  | nil => rfl
  | cons x rest ih =>
    by_cases hx : x = c
    · subst hx
      simp only [splitOnChar, if_pos rfl]
      cases hsp : splitOnChar x rest with
      | nil => exact absurd hsp (splitOnChar_ne_nil x rest)
      | cons h t =>
        rw [hsp] at ih
        show joinSep [x] ([] :: h :: t) = x :: rest
        show [] ++ [x] ++ joinSep [x] (h :: t) = x :: rest
        rw [← ih]
        rfl
    · simp only [splitOnChar, if_neg hx]
      cases hsp : splitOnChar c rest with
      | nil => exact absurd hsp (splitOnChar_ne_nil c rest)
      | cons h t =>
        rw [hsp] at ih
        show joinSep [c] ((x :: h) :: t) = x :: rest
        rw [← ih]
        cases t with
        | nil => rfl
        | cons t1 t2 =>
          show (x :: h) ++ [c] ++ joinSep [c] (t1 :: t2) = x :: (h ++ [c] ++ joinSep [c] (t1 :: t2))
          simp

theorem splitOnChar_joinSep (c : Char) :
    ∀ (parts : List (List Char)), parts ≠ [] → (∀ l ∈ parts, c ∉ l) →
      splitOnChar c (joinSep [c] parts) = parts := by
  intro parts
  induction parts with
  | nil => intro h _; exact absurd rfl h
  | cons x rest ih =>
    intro _ h
    cases rest with
    | nil =>
      show splitOnChar c x = [x]
      exact splitOnChar_eq_single (h x (List.mem_cons_self x []))
    | cons y t =>
      have hx : c ∉ x := h x (List.mem_cons_self x (y :: t))
      have hjoin : joinSep [c] (x :: y :: t) = x ++ c :: joinSep [c] (y :: t) := by
        show x ++ [c] ++ joinSep [c] (y :: t) = _
        simp
      rw [hjoin, splitOnChar_append_first _ hx,
        ih (by simp) (fun l hl => h l (List.mem_cons_of_mem x hl))]

theorem break_at_first_sep :
    ∀ (line : List Char), '/' ∈ line →
      line = line.takeWhile (fun c => c != '/') ++ '/' ::
        line.drop ((line.takeWhile (fun c => c != '/')).length + 1) ∧
      '/' ∉ line.takeWhile (fun c => c != '/') := by
  intro line
  induction line with
  | nil => intro h; exact absurd h (List.not_mem_nil '/')
  | cons x rest ih =>
    intro h
    by_cases hx : x = '/'
    · subst hx
      constructor
      · simp [List.takeWhile]
      · simp [List.takeWhile]
    · have hmem : '/' ∈ rest := by
        rcases List.mem_cons.mp h with h1 | h1
        · exact absurd h1.symm hx
        · exact h1
      obtain ⟨ihe, ihn⟩ := ih hmem
      have hxb : (x != '/') = true := bne_iff_ne.mpr hx
      constructor
      · show x :: rest = (x :: rest).takeWhile (fun c => c != '/') ++ '/' :: _
        rw [List.takeWhile_cons, if_pos hxb]
        simp only [List.length_cons]
        rw [List.drop_succ_cons]
        exact congrArg (x :: ·) ihe
      · rw [List.takeWhile_cons, if_pos hxb]
        intro hin
        rcases List.mem_cons.mp hin with h1 | h1
        · exact hx h1.symm
        · exact ihn h1

theorem parseMetadataLine_eq (m : List (List Char × List Char)) (line : List Char) :
    parseMetadataLine m line =
      if '/' ∈ line then
        setEntry m (jsTrim (line.takeWhile (fun c => c != '/')))
          (jsTrim (line.drop ((line.takeWhile (fun c => c != '/')).length + 1)))
      else m := by
  unfold parseMetadataLine
  by_cases hm : '/' ∈ line
  · obtain ⟨heq, hnot⟩ := break_at_first_sep line hm
    have hsplit : splitOnChar '/' line =
        line.takeWhile (fun c => c != '/') ::
          splitOnChar '/' (line.drop ((line.takeWhile (fun c => c != '/')).length + 1)) := by
      conv_lhs => rw [heq]
      exact splitOnChar_append_first _ hnot
    rw [if_pos (List.elem_iff.mpr hm), hsplit, if_pos hm]
    show setEntry m _ _ = _
    rw [joinSep_splitOnChar]
  · rw [if_neg hm]
    have hcf : line.contains '/' = false := by
      rw [← Bool.not_eq_true]
      intro hc
      exact hm (List.elem_iff.mp hc)
    rw [if_neg (by rw [hcf]; exact Bool.false_ne_true)]

/-- C5 (amended): for every header block, the parser stores an entry for
exactly the lines that contain the separator — keyed by the trimmed text
before the first separator, including the empty key when that text trims
to empty, with the value being everything after the first separator
occurrence, trimmed, and a repeated key overwriting its earlier value —
while lines lacking the separator produce no entry (and the source emits
no diagnostic in either case). -/
theorem parseMetadata_block_behavior (block : List Char) :
    parseMetadata block =
      (splitOnChar '\n' block).foldl
        (fun m line =>
          if '/' ∈ line then
            setEntry m (jsTrim (line.takeWhile (fun c => c != '/')))
              (jsTrim (line.drop ((line.takeWhile (fun c => c != '/')).length + 1)))
          else m) [] := by
  unfold parseMetadata
  congr 1
  funext m line
  exact parseMetadataLine_eq m line

theorem setEntry_fresh :
    ∀ (m : List (List Char × List Char)) (k v : List Char), (∀ kv ∈ m, kv.1 ≠ k) →
      setEntry m k v = m ++ [(k, v)] := by
  intro m
  induction m with
  | nil => intro k v _; rfl
  | cons kv0 rest ih =>
    intro k v h
    obtain ⟨k0, v0⟩ := kv0
    have hk0 : k0 ≠ k := h (k0, v0) (List.mem_cons_self _ _)
    simp only [setEntry, if_neg hk0, List.cons_append]
    rw [ih k v (fun kv hkv => h kv (List.mem_cons_of_mem _ hkv))]

theorem parseMetadata_fold_entries :
    ∀ (m : List (List Char × List Char)) (acc : List (List Char × List Char)),
      (m.map Prod.fst).Nodup →
      (∀ kv ∈ m, jsTrim kv.1 = kv.1 ∧ '/' ∉ kv.1 ∧ jsTrim kv.2 = kv.2) →
      (∀ kv ∈ m, ∀ kv2 ∈ acc, kv2.1 ≠ kv.1) →
      List.foldl parseMetadataLine acc (m.map (fun kv => kv.1 ++ '/' :: kv.2)) = acc ++ m := by
  intro m
  induction m with
  | nil => intro acc _ _ _; simp
  | cons kv0 rest ih =>
    intro acc hnd hfmt hfresh
    obtain ⟨k, v⟩ := kv0
    obtain ⟨hkt, hks, hvt⟩ := hfmt (k, v) (List.mem_cons_self _ _)
    have hm : '/' ∈ k ++ '/' :: v := List.mem_append_right k (List.mem_cons_self '/' v)
    have hstep : parseMetadataLine acc (k ++ '/' :: v) = acc ++ [(k, v)] := by
      unfold parseMetadataLine
      rw [if_pos (List.elem_iff.mpr hm), splitOnChar_append_first v hks]
      show setEntry acc (jsTrim k) (jsTrim (joinSep ['/'] (splitOnChar '/' v))) = _
      rw [joinSep_splitOnChar, hkt, hvt]
      exact setEntry_fresh acc k v
        (fun kv hkv => hfresh (k, v) (List.mem_cons_self _ _) kv hkv)
    simp only [List.map_cons, List.foldl_cons]
    rw [hstep]
    have hnd2 : (rest.map Prod.fst).Nodup := (List.nodup_cons.mp hnd).2
    have hknotin : k ∉ rest.map Prod.fst := (List.nodup_cons.mp hnd).1
    rw [ih (acc ++ [(k, v)]) hnd2
      (fun kv hkv => hfmt kv (List.mem_cons_of_mem _ hkv))
      (fun kv hkv kv2 hkv2 => by
        rcases List.mem_append.mp hkv2 with h2 | h2
        · exact hfresh kv (List.mem_cons_of_mem _ hkv) kv2 h2
        · have : kv2 = (k, v) := by simpa using h2
          subst this
          intro hcon
          exact hknotin (by
            rw [show k = kv.1 from hcon]
            exact List.mem_map_of_mem Prod.fst hkv))]
    simp

/-- C9: for a mapping whose keys are distinct non-empty trimmed strings
containing neither the separator nor a line break, and whose values are
trimmed strings containing no line break, serializing one KEY/value line
per entry and re-parsing yields the identical mapping. -/
theorem metadata_roundtrip (m : List (List Char × List Char))
    (hnd : (m.map Prod.fst).Nodup)
    (hk : ∀ kv ∈ m, kv.1 ≠ [] ∧ jsTrim kv.1 = kv.1 ∧ '/' ∉ kv.1 ∧ '\n' ∉ kv.1)
    (hv : ∀ kv ∈ m, jsTrim kv.2 = kv.2 ∧ '\n' ∉ kv.2) :
    parseMetadata (serializeMetadata m) = m := by
  cases m with
  | nil => rfl
  | cons kv0 rest =>
    unfold serializeMetadata parseMetadata
    rw [splitOnChar_joinSep '\n' _ (by simp) (by
      intro l hl
      obtain ⟨kv, hkv, rfl⟩ := List.mem_map.mp hl
      intro hmem
      rcases List.mem_append.mp hmem with h1 | h1
      · exact (hk kv hkv).2.2.2 h1
      · rcases List.mem_cons.mp h1 with h2 | h2
        · exact absurd h2 (by decide)
        · exact (hv kv hkv).2 h2)]
    rw [parseMetadata_fold_entries (kv0 :: rest) [] hnd
      (fun kv hm => ⟨(hk kv hm).2.1, (hk kv hm).2.2.1, (hv kv hm).1⟩)
      (fun kv _ kv2 h2 => absurd h2 (List.not_mem_nil kv2))]
    simp

/-- Witness: a concrete two-entry mapping, one value containing the
separator, survives the serialize/parse round trip unchanged. -/
theorem metadata_roundtrip_witness :
    parseMetadata (serializeMetadata
        [("FILENAME".toList, "a/b.txt".toList), ("EXT".toList, ".txt".toList)]) =
      [("FILENAME".toList, "a/b.txt".toList), ("EXT".toList, ".txt".toList)] :=
  metadata_roundtrip _ (by decide) (by decide) (by decide)

/-! ### The plain-text normalizer's forward scan -/

theorem find?_range_first {p : Nat → Bool} :
    ∀ {n j : Nat}, (List.range n).find? p = some j →
      p j = true ∧ j < n ∧ ∀ q < j, p q = false := by
  intro n
  induction n with
  | zero => intro j h; simp at h
  | succ n ih =>
    intro j h
    rw [List.range_succ, List.find?_append] at h
    cases hf : (List.range n).find? p with
    | some j0 =>
      rw [hf] at h
      have hj : j0 = j := by simpa using h
      subst hj
      obtain ⟨h1, h2, h3⟩ := ih hf
      exact ⟨h1, by omega, h3⟩
    | none =>
      rw [hf, Option.none_or] at h
      have hall := List.find?_eq_none.mp hf
      cases hp : p n with
      | false => simp [List.find?, hp] at h
      | true =>
        have hj : n = j := by simpa [List.find?, hp] using h
        subst hj
        refine ⟨hp, Nat.lt_succ_self n, fun q hq => ?_⟩
        have := hall q (List.mem_range.mpr hq)
        simpa using this

theorem find?_range_exists {p : Nat → Bool} {n i : Nat} (hi : i < n) (hp : p i = true) :
    ∃ j, (List.range n).find? p = some j := by
  cases hf : (List.range n).find? p with
  | some j => exact ⟨j, rfl⟩
  | none =>
    exact absurd hp (by simpa using List.find?_eq_none.mp hf i (List.mem_range.mpr hi))

/-- C6 (amended): whenever a printable run of at least 10 bytes starts at
an offset strictly below length - 10 (the scan tests only those offsets),
the normalizer decodes from the offset of the first such run, discarding
everything before it; a qualifying run beginning only within the last 10
bytes is never tested and the buffer falls through to the later
strategies. -/
theorem processText_first_run (content : List Nat) (i : Nat)
    (h1 : hasRunAt content i) (h2 : i < content.length - 10) :
    ∃ j, cleanTextStart content = some j ∧ j ≤ i ∧ hasRunAt content j ∧
      (∀ p < j, ¬ hasRunAt content p) ∧
      ∀ decode : List Nat → List Char,
        processTextContent decode content = jsTrim (stripTrailStars (decode (content.drop j))) := by
  have hp : decide (10 ≤ runLen content i) = true := decide_eq_true h1
  obtain ⟨j, hj⟩ := find?_range_exists (p := fun x => decide (10 ≤ runLen content x)) h2 hp
  obtain ⟨hpj, hjn, hmin⟩ := find?_range_first hj
  have hjfound : cleanTextStart content = some j := hj
  refine ⟨j, hjfound, ?_, of_decide_eq_true hpj, ?_, ?_⟩
  · by_contra hgt
    push_neg at hgt
    have := hmin i hgt
    rw [hp] at this
    exact absurd this (by decide)
  · intro p hd hrun
    have := hmin p hd
    rw [decide_eq_true (show (10 ≤ runLen content p) from hrun)] at this
    exact absurd this (by decide)
  · intro decode
    simp [processTextContent, hjfound]

/-- Witness for the text scan: a buffer of eleven printable bytes and one
trailing NUL has its first qualifying run at offset zero, inside the
scanned range, and the normalizer decodes from there. -/
theorem processText_first_run_witness :
    ∃ j, cleanTextStart (List.replicate 11 0x41 ++ [0x00]) = some j ∧ j ≤ 0 ∧
      hasRunAt (List.replicate 11 0x41 ++ [0x00]) j ∧
      (∀ p < j, ¬ hasRunAt (List.replicate 11 0x41 ++ [0x00]) p) ∧
      ∀ decode : List Nat → List Char,
        processTextContent decode (List.replicate 11 0x41 ++ [0x00]) =
          jsTrim (stripTrailStars (decode ((List.replicate 11 0x41 ++ [0x00]).drop j))) :=
  processText_first_run _ 0 (by decide) (by decide)

/-! ### The assembler's sentinel filename -/

theorem imageNormalize_none_filename (codec : ImageCodec) (bytes : List Nat) :
    (imageNormalize codec bytes none).2 = none := by
  unfold imageNormalize tryImage
  cases hfm : codec.format bytes with
  | none => rfl
  | some f =>
    simp only [Option.some_bind]
    by_cases hw : f = "webp".toList
    · rw [if_pos hw]
      cases hwb : codec.toWebp bytes with
      | none => rfl
      | some out => rfl
    · rw [if_neg hw]
      by_cases hj : f = "jpeg".toList
      · rw [if_pos hj]
        cases hjb : codec.toJpeg bytes with
        | none => rfl
        | some out => rfl
      · rw [if_neg hj]
        cases hrb : codec.reencode bytes with
        | none => rfl
        | some out => rfl

/-- C8 (amended): a section whose metadata block declares no FILENAME
entry assembles — under every codec — to a record whose filename is the
non-empty constant sentinel string unknown (not a value combining an
identifier and the declared extension; that sentinel exists only in the
disk extractor). -/
theorem assembler_filename_sentinel (codec : ImageCodec) (sectionContent : List Char) (k : Nat)
    (hk : indexOfToken SIG sectionContent = some k)
    (hf : findVal (parseMetadata (sectionContent.take k)) "FILENAME".toList = none) :
    ∃ r, processSectionToFile codec sectionContent = some r ∧
      r.filename = "unknown".toList ∧ r.filename ≠ [] := by
  simp only [processSectionToFile, hk, hf]
  by_cases him : isImageMeta (parseMetadata (sectionContent.take k)) = true
  · rw [if_pos him]
    refine ⟨_, rfl, ?_, ?_⟩
    · show jsOrStr (imageNormalize codec _ none).2 "unknown".toList = "unknown".toList
      rw [imageNormalize_none_filename]
      rfl
    · show jsOrStr (imageNormalize codec _ none).2 "unknown".toList ≠ []
      rw [imageNormalize_none_filename]
      decide
  · rw [if_neg him]
    refine ⟨_, rfl, rfl, ?_⟩
    intro hcon
    have hbad : ("unknown".toList : List Char) = [] := hcon
    exact absurd hbad (by decide)

/-- Witness: a concrete section with TYPE but no FILENAME assembles to the
record named unknown. -/
theorem assembler_filename_sentinel_witness :
    ∃ r, processSectionToFile failingCodec "TYPE/X\n_SIG/D.C.abc".toList = some r ∧
      r.filename = "unknown".toList ∧ r.filename ≠ [] :=
  assembler_filename_sentinel failingCodec _ 7 (by decide) (by decide)

/-- C1: feeding the bytes `**%%DOCUA**%%DOCUB` as one chunk emits the
sections A and B, but feeding the same bytes split inside the second
delimiter token (chunks `**%%DOCUA**%%DO` and `CUB`) emits the single
section `A**%%DOCUB`: the scanner moves its carry-over into the section
accumulator while in-section and searches the new chunk alone, so a
delimiter straddling a chunk boundary is not detected and the output is
not byte-identical across chunkings. -/
theorem scanner_chunking_divergence :
    scanAll ["**%%DOCUA**%%DO".toList ++ "CUB".toList] = ["A".toList, "B".toList] ∧
    scanAll ["**%%DOCUA**%%DO".toList, "CUB".toList] = ["A**%%DOCUB".toList] ∧
    scanAll ["**%%DOCUA**%%DO".toList, "CUB".toList] ≠
      scanAll ["**%%DOCUA**%%DO".toList ++ "CUB".toList] := by
  decide

/-- C2: on the input `**%%DOCUNOSIGHERE`, whose only section lacks the
signature marker, the in-memory parseCompoundFile of part_000 does not
drop the section: it emits a record (filename unknown, content the
section text from index 8 on, line range 1-2) instead of no record.  The
streaming assembler processSectionToFile does drop such a section
(returns none), and the pipeline still processes the following valid
section into a record. -/
theorem missing_marker_divergence :
    parseCompoundFileMem failingCodec "**%%DOCUNOSIGHERE".toList =
      [⟨"unknown".toList, [], [], [], [], [], [], latin1Bytes "E".toList, 1, 2, 1⟩] ∧
    processSectionToFile failingCodec "NOSIGHERE".toList = none ∧
    processAllSections failingCodec
        ["NOSIGHERE".toList, "FILENAME/a.txt\n_SIG/D.C.hello".toList] =
      [⟨"a.txt".toList, [], [], [], [], [], [], latin1Bytes "hello".toList, 0, 0, 5⟩] := by
  decide

/-- C3: for a record whose filename is `../evil`, the extractFilesToDisk of
part_000 performs no sanitization and no containment check: it writes to
path.join of `output` and `../evil`, which normalizes to `evil` — outside
the destination root (it does not even start with the root).  The
extractor of src/index.ts sanitizes the same filename to `__evil` and
writes inside the root. -/
theorem traversal_divergence :
    extractFilesToDiskMem asciiDecode (fun _ => false) "output".toList
        [⟨"../evil".toList, [], [], [], [], [], [], [], 0, 0, 0⟩] =
      ([WriteOutcome.written "evil".toList (Sum.inr [])], none) ∧
    tokenAt "output".toList "evil".toList = false ∧
    extractFilesToDisk asciiDecode (fun _ => false) "/out".toList
        [⟨"../evil".toList, [], [], [], [], [], [], [], 0, 0, 0⟩] =
      [WriteOutcome.written "/out/__evil".toList (Sum.inr [])] ∧
    tokenAt "/out".toList "/out/__evil".toList = true := by
  decide

/-- C4: with two records a.bin and b.bin where writing a.bin fails, the
extractFilesToDisk of part_000 aborts the batch at the failure (no record
is written and b.bin is never attempted), while the extractor of
src/index.ts catches the per-file failure and still writes b.bin. -/
theorem write_failure_divergence :
    extractFilesToDiskMem asciiDecode
        (fun p => p == "output/a.bin".toList || p == "/out/a.bin".toList) "output".toList
        [⟨"a.bin".toList, [], [], [], [], [], [], [], 0, 0, 0⟩,
         ⟨"b.bin".toList, [], [], [], [], [], [], [], 0, 0, 0⟩] =
      ([], some "output/a.bin".toList) ∧
    extractFilesToDisk asciiDecode
        (fun p => p == "output/a.bin".toList || p == "/out/a.bin".toList) "/out".toList
        [⟨"a.bin".toList, [], [], [], [], [], [], [], 0, 0, 0⟩,
         ⟨"b.bin".toList, [], [], [], [], [], [], [], 0, 0, 0⟩] =
      [WriteOutcome.writeFailed "/out/a.bin".toList,
       WriteOutcome.written "/out/b.bin".toList (Sum.inr [])] := by
  decide

/-- C5 counterexample: the line `/v` contains the separator but its key
trims to empty, and parseMetadata still stores an entry for it (under the
empty key) instead of producing no entry. -/
theorem parseMetadata_empty_key_entry :
    parseMetadata "/v".toList = [([], "v".toList)] ∧
    parseMetadata "/v".toList ≠ [] ∧
    findVal (parseMetadata "/v".toList) [] = some "v".toList := by
  decide

/-- C6 counterexample: in the buffer A, NUL, then ten B bytes, the first
(and only) printable run of length at least 10 starts at offset 2, but
that offset is not below length - 10, so the scan never tests it: the
normalizer falls through to strategy 3 and returns the whole decoded
buffer, junk prefix included, rather than decoding from offset 2. -/
theorem processText_missed_run :
    hasRunAt ([0x41, 0x00] ++ List.replicate 10 0x42) 2 ∧
    ¬ hasRunAt ([0x41, 0x00] ++ List.replicate 10 0x42) 0 ∧
    ¬ hasRunAt ([0x41, 0x00] ++ List.replicate 10 0x42) 1 ∧
    processTextContent asciiDecode ([0x41, 0x00] ++ List.replicate 10 0x42) =
      asciiDecode ([0x41, 0x00] ++ List.replicate 10 0x42) ∧
    processTextContent asciiDecode ([0x41, 0x00] ++ List.replicate 10 0x42) ≠
      jsTrim (stripTrailStars (asciiDecode (([0x41, 0x00] ++ List.replicate 10 0x42).drop 2))) := by
  decide

/-- C8 counterexample: a section declaring EXT .txt and GUID abcdef12 but
no FILENAME assembles to a record whose filename is the constant sentinel
`unknown`, which contains neither the declared extension nor any part of
the identifier — not a value combining a short identifier and the
extension. -/
theorem sentinel_filename_plain_unknown :
    processSectionToFile failingCodec
        "TYPE/PLAINTEXT\nEXT/.txt\nGUID/abcdef12\n_SIG/D.C.payload".toList =
      some ⟨"unknown".toList, ".txt".toList, "PLAINTEXT".toList, [], [],
        "abcdef12".toList, [], latin1Bytes "payload".toList, 0, 0, 7⟩ ∧
    hasSub ".txt".toList "unknown".toList = false ∧
    hasSub "abcdef12".toList "unknown".toList = false := by
  decide

end FileExtraction
